import Mathlib

/-!
# Verification of the Lua_chains event/middleware pipeline

Shallow embedding of `src/src/main.rs` (the `LuaChainRunner` engine) and of
the Lua-configured build path in `src/src/lua_config.rs`.

Modelling choices, stated once:

* The Lua global `__context` is the single shared mutable Context.  It is
  modelled as the `ctx` field of an `EngineState`, threaded explicitly through
  every operation; an operation returns the surviving state together with an
  `Except String` outcome, because a `LuaResult` error in the Rust code
  propagates while the Lua global keeps its last value.
* The Lua context table is opaque to the engine in `main.rs`, so the engine is
  parametric over a type `Ctx` of context values.  Lua tables are reference
  values; a handler that builds and returns a fresh table is modelled by a
  handler function returning a new `Ctx` value.
* Every dynamic `handler.call` performed by the engine is recorded in a ghost
  `trace` field (one entry per call, appended at the call site), so that
  claims about invocation order and invocation counts are statable.
* A Lua event handler is an arbitrary function `Ctx → Except String Ctx`
  (one argument, returns the updated context or raises).  A Lua middleware
  handler receives `(context, next)`; its observable behaviours are:
  `short f` — it returns `f context` without ever calling `next`; or
  `wrap pre post` — it calls `next` exactly once on `pre context` and
  returns `post context r` where `r` is the value `next` returned.
  Either phase may raise (return `.error`).
-/

namespace LuaChains

/-- Ghost record of one dynamic handler invocation performed by the engine:
`event i` is a call of `event_handlers[i]`, `mw i` a call of
`middleware_handlers[i]` (`i` is the storage position in the runner's list). -/
inductive Call where
  | event : Nat → Call
  | mw : Nat → Call
deriving DecidableEq, Repr

/-- The runner's mutable Lua-side state: the global `__context` plus the ghost
trace of handler calls made so far. -/
structure EngineState (Ctx : Type) where
  ctx : Ctx
  trace : List Call
deriving DecidableEq, Repr

/-- Observable behaviour of a Lua middleware handler `function(ctx, next)`:
either it never calls `next` (`short`), or it calls `next` exactly once
(`wrap pre post`: `pre` produces the argument passed to `next`, and `post`
maps the original context and the value returned by `next` to the
middleware's own return value). -/
inductive MwBehavior (Ctx : Type) where
  | short : (Ctx → Except String Ctx) → MwBehavior Ctx
  | wrap : (Ctx → Except String Ctx) → (Ctx → Ctx → Except String Ctx) → MwBehavior Ctx

/-- `LuaChainRunner::execute_middleware_stack_static` (src/src/main.rs,
lines 137-168).  Base case (`middleware_index >= middleware_handlers.len()`):
read the global, call the event handler, install its return value as the new
global.  Recursive case: select the middleware at storage position
`len - 1 - middleware_index`, call it with the current global and a `next`
continuation; `next ctx` installs `ctx` as the global, recurses at
`middleware_index + 1`, and returns `ctx` — the value it was passed (the Rust
closure ends in `Ok(ctx)`).  The middleware's own return value is then
installed as the new global.  Out-of-range indices (which panic or fail
registry lookup in Rust, and are never produced by `execute`) are modelled as
error outcomes. -/
def execute_middleware_stack_static {Ctx : Type}
    (events : List (Ctx → Except String Ctx)) (mws : List (MwBehavior Ctx))
    (middleware_index event_idx : Nat) (s : EngineState Ctx) :
    EngineState Ctx × Except String Unit :=
  if hge : middleware_index ≥ mws.length then
    match events[event_idx]? with
    | none => (s, .error "invalid event index")
    | some handler =>
      let s1 : EngineState Ctx := { s with trace := s.trace ++ [Call.event event_idx] }
      match handler s1.ctx with
      | .error e => (s1, .error e)
      | .ok updated => ({ s1 with ctx := updated }, .ok ())
  else
    let mw_idx := mws.length - 1 - middleware_index
    match mws[mw_idx]? with
    | none => (s, .error "invalid middleware index")  -- unreachable: mw_idx < mws.length
    | some mwb =>
      let s1 : EngineState Ctx := { s with trace := s.trace ++ [Call.mw mw_idx] }
      match mwb with
      | .short f =>
        match f s1.ctx with
        | .error e => (s1, .error e)
        | .ok r => ({ s1 with ctx := r }, .ok ())
      | .wrap pre post =>
        match pre s1.ctx with
        | .error e => (s1, .error e)
        | .ok a =>
          match execute_middleware_stack_static events mws (middleware_index + 1) event_idx
              { s1 with ctx := a } with
          | (s3, .error e) => (s3, .error e)
          | (s3, .ok ()) =>
            -- `next` returned `a`, the value it was passed; the middleware's
            -- post-processing sees `a`, not the global `s3.ctx`.
            match post s1.ctx a with
            | .error e => (s3, .error e)
            | .ok r => ({ s3 with ctx := r }, .ok ())
termination_by mws.length - middleware_index
decreasing_by omega

/-- `LuaChainRunner::execute_middleware_stack` (src/src/main.rs, lines
96-135), the method variant.  Its body duplicates the static variant except
that the `next` closure recurses into `execute_middleware_stack_static`
(line 124), so this definition is not self-recursive. -/
def execute_middleware_stack {Ctx : Type}
    (events : List (Ctx → Except String Ctx)) (mws : List (MwBehavior Ctx))
    (middleware_index event_idx : Nat) (s : EngineState Ctx) :
    EngineState Ctx × Except String Unit :=
  if _hge : middleware_index ≥ mws.length then
    match events[event_idx]? with
    | none => (s, .error "invalid event index")
    | some handler =>
      let s1 : EngineState Ctx := { s with trace := s.trace ++ [Call.event event_idx] }
      match handler s1.ctx with
      | .error e => (s1, .error e)
      | .ok updated => ({ s1 with ctx := updated }, .ok ())
  else
    let mw_idx := mws.length - 1 - middleware_index
    match mws[mw_idx]? with
    | none => (s, .error "invalid middleware index")
    | some mwb =>
      let s1 : EngineState Ctx := { s with trace := s.trace ++ [Call.mw mw_idx] }
      match mwb with
      | .short f =>
        match f s1.ctx with
        | .error e => (s1, .error e)
        | .ok r => ({ s1 with ctx := r }, .ok ())
      | .wrap pre post =>
        match pre s1.ctx with
        | .error e => (s1, .error e)
        | .ok a =>
          match execute_middleware_stack_static events mws (middleware_index + 1) event_idx
              { s1 with ctx := a } with
          | (s3, .error e) => (s3, .error e)
          | (s3, .ok ()) =>
            match post s1.ctx a with
            | .error e => (s3, .error e)
            | .ok r => ({ s3 with ctx := r }, .ok ())

/-- `LuaChainRunner::execute_with_middleware` (src/src/main.rs, lines 91-94):
start the onion composition at depth 0 for one event position. -/
def execute_with_middleware {Ctx : Type}
    (events : List (Ctx → Except String Ctx)) (mws : List (MwBehavior Ctx))
    (event_idx : Nat) (s : EngineState Ctx) : EngineState Ctx × Except String Unit :=
  execute_middleware_stack events mws 0 event_idx s

/-- The FIFO loop body of `LuaChainRunner::execute` (src/src/main.rs, lines
75-78), generalised to an explicit list of event positions: run the
composition for each position in order, propagating the first error (the `?`
in the Rust loop). -/
def runEvents {Ctx : Type}
    (events : List (Ctx → Except String Ctx)) (mws : List (MwBehavior Ctx)) :
    List Nat → EngineState Ctx → EngineState Ctx × Except String Unit
  | [], s => (s, .ok ())
  | i :: rest, s =>
    match execute_with_middleware events mws i s with
    | (s2, .ok ()) => runEvents events mws rest s2
    | (s2, .error e) => (s2, .error e)

/-- `LuaChainRunner::execute` (src/src/main.rs, lines 69-89): iterate the
event positions `0, 1, ..., len - 1` strictly FIFO; on success the final
global `__context` is the `ctx` of the returned state (the Rust code reads it
back from the Lua globals at line 82). -/
def execute {Ctx : Type}
    (events : List (Ctx → Except String Ctx)) (mws : List (MwBehavior Ctx))
    (s : EngineState Ctx) : EngineState Ctx × Except String Unit :=
  runEvents events mws (List.range events.length) s

/-! ## Building a runner from a Lua chain definition (`from_definition`) -/

/-- One entry of the `events` (or `middleware`) list of a Lua chain
definition: a Lua table whose `handler` field may be absent (a `get` of an
absent field yields nil, and mlua's conversion of nil to a function fails). -/
structure HandlerEntry (H : Type) where
  handler : Option H
deriving DecidableEq, Repr

/-- A Lua chain-definition table as read by `from_definition`: each of the
three fields is `none` when absent (a Lua `get` of a missing key yields nil,
and mlua's typed conversion of nil to a table then fails). -/
structure ChainDef (Ctx He Hm : Type) where
  context : Option Ctx
  events : Option (List (HandlerEntry He))
  middleware : Option (List (HandlerEntry Hm))
deriving DecidableEq, Repr

/-- The runner produced by `from_definition`: the initial global `__context`
installed from the definition, plus the two immutable handler lists. -/
structure Runner (Ctx He Hm : Type) where
  global : Ctx
  event_handlers : List He
  middleware_handlers : List Hm
deriving DecidableEq, Repr

/-- The extraction loop of `from_definition` (src/src/main.rs, lines 34-41
and 48-55): iterate the entries with their 1-based Lua indices, failing on the
first entry whose `handler` field does not resolve to a function.  `label` is
`"event"` or `"middleware"` as in the Rust error messages. -/
def extractHandlers {H : Type} (label : String) :
    List (HandlerEntry H) → Nat → Except String (List H)
  | [], _ => .ok []
  | entry :: rest, idx =>
    match entry.handler with
    | none =>
      .error ("Failed to get handler for " ++ label ++ " " ++ toString idx
        ++ ": error converting Lua nil to function")
    | some h =>
      match extractHandlers label rest (idx + 1) with
      | .error e => .error e
      | .ok hs => .ok (h :: hs)

/-- `LuaChainRunner::from_definition` (src/src/main.rs, lines 16-66):
require the `context` field and install it as the global `__context`;
require the `events` field and extract each entry's handler; require the
`middleware` field and extract each entry's handler.  A missing field is nil,
whose typed conversion fails, which the code wraps into the
`Failed to get '...'` runtime error. -/
def from_definition {Ctx He Hm : Type} (d : ChainDef Ctx He Hm) :
    Except String (Runner Ctx He Hm) :=
  match d.context with
  | none => .error "Failed to get 'context': error converting Lua nil to table"
  | some ctx =>
    match d.events with
    | none => .error "Failed to get 'events': error converting Lua nil to table"
    | some eventEntries =>
      match extractHandlers "event" eventEntries 1 with
      | .error e => .error e
      | .ok event_handlers =>
        match d.middleware with
        | none => .error "Failed to get 'middleware': error converting Lua nil to table"
        | some mwEntries =>
          match extractHandlers "middleware" mwEntries 1 with
          | .error e => .error e
          | .ok middleware_handlers =>
            .ok ⟨ctx, event_handlers, middleware_handlers⟩

/-- The `main.rs` pipeline around the runner (src/src/main.rs, lines 245-251):
build the runner with `from_definition`, then call `execute`.  Returns the
ghost trace of handler calls together with the outcome; a build failure
returns before any handler runs, so its trace is empty. -/
def mainPipeline {Ctx : Type}
    (d : ChainDef Ctx (Ctx → Except String Ctx) (MwBehavior Ctx)) :
    List Call × Except String Ctx :=
  match from_definition d with
  | .error e => ([], .error e)
  | .ok runner =>
    match execute runner.event_handlers runner.middleware_handlers
        ⟨runner.global, []⟩ with
    | (s, .ok ()) => (s.trace, .ok s.ctx)
    | (s, .error e) => (s.trace, .error e)

/-! ## The Lua-configured native chain (`src/src/lua_config.rs`) -/

/-- A Lua value as discriminated by the extraction loop in
`src/src/lua_config.rs` (lines 108-115): integers and strings are the kinds
the loop stores; `number` is a Lua float (the loop never inspects its payload,
so none is modelled) and `other` is any other Lua value — both fall into the
`_ => {}` arm. -/
inductive LuaValue where
  | integer : Int → LuaValue
  | str : String → LuaValue
  | number : LuaValue
  | other : LuaValue
deriving DecidableEq, Repr

/-- A value stored in the native `EventContext` by this program: the
extraction loop stores `i64` integers and owned strings. -/
inductive ECValue where
  | int : Int → ECValue
  | str : String → ECValue
deriving DecidableEq, Repr

/-- Modelled from the spec: the `EventContext` of the external `event_chains`
crate (not under src/), per §3 and §4.1 — a mapping from string keys to
dynamically typed values; `set` inserts or overwrites (last write wins). -/
def EventContext : Type := List (String × ECValue)

/-- Modelled from the spec: `EventContext::set` (§4.1) — insert or overwrite;
last write wins.  Prepending combined with first-match lookup realises
last-write-wins. -/
def ecSet (c : EventContext) (k : String) (v : ECValue) : EventContext :=
  (k, v) :: c

/-- Modelled from the spec: the untyped core of `EventContext::get` (§4.1) —
the most recently written value at the key, or `none` when absent. -/
def ecGet (c : EventContext) (k : String) : Option ECValue :=
  (c.find? (fun p => p.1 == k)).map (fun p => p.2)

/-- Modelled from the spec: `EventContext::get::<i64>` (§4.1) — the stored
value coerced to an integer, `none` when absent or of mismatched kind. -/
def ecGetInt (c : EventContext) (k : String) : Option Int :=
  match ecGet c k with
  | some (ECValue.int i) => some i
  | _ => none

/-- Modelled from the spec: `EventContext::get::<String>` (§4.1) — the stored
value coerced to text, `none` when absent or of mismatched kind. -/
def ecGetStr (c : EventContext) (k : String) : Option String :=
  match ecGet c k with
  | some (ECValue.str s) => some s
  | _ => none

/-- The context-extraction loop of `src/src/lua_config.rs` (lines 105-115):
for each key/value pair of the Lua `context` table, store integers and
strings into the fresh `EventContext`; every other kind of value — including
Lua floats (`LuaValue::Number`) — falls into the `_ => {}` arm and is
silently skipped. -/
def extractContext : List (String × LuaValue) → EventContext → EventContext
  | [], c => c
  | (k, v) :: rest, c =>
    extractContext rest
      (match v with
       | LuaValue.integer i => ecSet c k (ECValue.int i)
       | LuaValue.str s => ecSet c k (ECValue.str s)
       | _ => c)

/-- The two statically registered events of `src/src/lua_config.rs`
(lines 9-27). -/
inductive RegisteredEvent where
  | increment
  | append
deriving DecidableEq, Repr

/-- `IncrementEvent::execute` / `AppendEvent::execute` dispatched through the
`RegisteredEvent` wrapper (src/src/lua_config.rs, lines 9-51): `increment`
reads `counter` (default 0) and writes `counter + 1`; `append` reads
`message` (default empty) and appends `" -> processed"`.  Both always
succeed, so the outcome is the updated context. -/
def RegisteredEvent.execute : RegisteredEvent → EventContext → EventContext
  | RegisteredEvent.increment, c =>
    ecSet c "counter" (ECValue.int ((ecGetInt c "counter").getD 0 + 1))
  | RegisteredEvent.append, c =>
    ecSet c "message" (ECValue.str ((ecGetStr c "message").getD "" ++ " -> processed"))

/-- The name-resolution step of the build loop in `src/src/lua_config.rs`
(lines 124-128): exact, case-sensitive match against the registered events;
any other name is the `Unknown event` configuration error. -/
def resolveEvent (name : String) : Except String RegisteredEvent :=
  if name = "increment" then .ok RegisteredEvent.increment
  else if name = "append" then .ok RegisteredEvent.append
  else .error ("Unknown event: " ++ name)

/-- The chain-building loop of `src/src/lua_config.rs` (lines 120-130):
resolve each event name in order, returning the first resolution error
(`return Err(...)` exits the loop immediately). -/
def buildChain : List String → Except String (List RegisteredEvent)
  | [] => .ok []
  | name :: rest =>
    match resolveEvent name with
    | .error e => .error e
    | .ok ev =>
      match buildChain rest with
      | .error e => .error e
      | .ok evs => .ok (ev :: evs)

/-- Modelled from the spec: `EventChain::execute` of the external
`event_chains` crate (not under src/), per §4.4 — run the events strictly
FIFO against the context.  The registered events of this file never fail, so
no abort path arises.  Instrumented with the list of executed event names, in
execution order. -/
def execChain : List RegisteredEvent → EventContext → EventContext × List String
  | [], c => (c, [])
  | ev :: rest, c =>
    let c2 := ev.execute c
    let (c3, names) := execChain rest c2
    (c3, (match ev with
          | RegisteredEvent.increment => "increment"
          | RegisteredEvent.append => "append") :: names)

/-- The Lua-defined-chain pipeline of `src/src/lua_config.rs` `main`
(lines 100-137): extract the context, build the chain from the event names
(before any execution), then execute.  Returns the names of the events that
actually executed together with the outcome; a build error returns before
`execute` is reached, so no event runs. -/
def luaConfigRun (ctxPairs : List (String × LuaValue)) (names : List String) :
    List String × Except String EventContext :=
  let c0 := extractContext ctxPairs []
  match buildChain names with
  | .error e => ([], .error e)
  | .ok chain =>
    let (c, executed) := execChain chain c0
    (executed, .ok c)

/-! ## Specification-side definitions used to state the claims -/

/-- A pure, always-succeeding event handler (one that transforms the context
by `f` and returns it). -/
def pureEvent {Ctx : Type} (f : Ctx → Ctx) : Ctx → Except String Ctx :=
  fun c => .ok (f c)

/-- A pure, always-succeeding middleware that calls its continuation exactly
once: pre-processing `p` produces the argument passed to `next`, and
post-processing `q` combines the original context with `next`'s return. -/
def pureWrap {Ctx : Type} (p : Ctx → Ctx) (q : Ctx → Ctx → Ctx) : MwBehavior Ctx :=
  .wrap (fun c => .ok (p c)) (fun c r => .ok (q c r))

/-- Apply the event at position `i` of a pure-handler list (identity when the
position is out of range, which `execute` never produces). -/
def applyIdx {Ctx : Type} (efs : List (Ctx → Ctx)) (i : Nat) (c : Ctx) : Ctx :=
  match efs[i]? with
  | some f => f c
  | none => c

/-- The repeated-execution loop of `src/src/main.rs` (lines 279-281): call
`runner.execute()` `n` times in a row on the same runner.  Nothing resets the
Lua global `__context` between iterations, so each call starts from the state
the previous call left behind. -/
def iterateExec {Ctx : Type}
    (events : List (Ctx → Except String Ctx)) (mws : List (MwBehavior Ctx)) :
    Nat → EngineState Ctx → EngineState Ctx
  | 0, s => s
  | n + 1, s => iterateExec events mws n (execute events mws s).1

/-! ## Helper lemmas about the onion composition -/

/-- The method and static variants of the middleware stack have equal
behaviour on all inputs: the method's body is the static body with its one
recursive occurrence already pointing at the static variant. -/
theorem stack_eq_static {Ctx : Type}
    (events : List (Ctx → Except String Ctx)) (mws : List (MwBehavior Ctx))
    (middleware_index event_idx : Nat) (s : EngineState Ctx) :
    execute_middleware_stack events mws middleware_index event_idx s =
      execute_middleware_stack_static events mws middleware_index event_idx s := by
  rw [execute_middleware_stack_static]
  rfl

/-- Base case characterisation: at depth `≥ N` the composition calls the
event handler on the current global and installs its result. -/
theorem static_base {Ctx : Type}
    (events : List (Ctx → Except String Ctx)) (mws : List (MwBehavior Ctx))
    (d i : Nat) (s : EngineState Ctx) (hge : mws.length ≤ d) :
    execute_middleware_stack_static events mws d i s =
      match events[i]? with
      | none => (s, .error "invalid event index")
      | some handler =>
        match handler s.ctx with
        | .error e => ({ s with trace := s.trace ++ [Call.event i] }, .error e)
        | .ok updated => (⟨updated, s.trace ++ [Call.event i]⟩, .ok ()) := by
  rw [execute_middleware_stack_static, dif_pos (by omega : d ≥ mws.length)]

/-- Recursive case characterisation for a middleware that calls `next` once:
the middleware at storage position `N - 1 - d` is called; `next` installs the
passed value `a` as the global, recurses at depth `d + 1`, and hands `a` —
not the updated global — to the middleware's post-processing. -/
theorem static_wrap {Ctx : Type}
    (events : List (Ctx → Except String Ctx)) (mws : List (MwBehavior Ctx))
    (d i : Nat) (s : EngineState Ctx)
    (pre : Ctx → Except String Ctx) (post : Ctx → Ctx → Except String Ctx) (a : Ctx)
    (hlt : d < mws.length)
    (hmw : mws[mws.length - 1 - d]? = some (MwBehavior.wrap pre post))
    (hpre : pre s.ctx = .ok a) :
    execute_middleware_stack_static events mws d i s =
      match execute_middleware_stack_static events mws (d + 1) i
          ⟨a, s.trace ++ [Call.mw (mws.length - 1 - d)]⟩ with
      | (s3, .error e) => (s3, .error e)
      | (s3, .ok ()) =>
        match post s.ctx a with
        | .error e => (s3, .error e)
        | .ok r => ({ s3 with ctx := r }, .ok ()) := by
  rw [execute_middleware_stack_static, dif_neg (by omega : ¬ d ≥ mws.length)]
  simp only [hmw, hpre]

/-- Recursive case characterisation, all middleware behaviours: the
middleware at storage position `N - 1 - d` is the one called at depth `d`. -/
theorem static_mw {Ctx : Type}
    (events : List (Ctx → Except String Ctx)) (mws : List (MwBehavior Ctx))
    (d i : Nat) (s : EngineState Ctx) (hlt : d < mws.length) :
    execute_middleware_stack_static events mws d i s =
      match mws[mws.length - 1 - d]? with
      | none => (s, .error "invalid middleware index")
      | some mwb =>
        match mwb with
        | .short f =>
          match f s.ctx with
          | .error e => ({ s with trace := s.trace ++ [Call.mw (mws.length - 1 - d)] }, .error e)
          | .ok r => (⟨r, s.trace ++ [Call.mw (mws.length - 1 - d)]⟩, .ok ())
        | .wrap pre post =>
          match pre s.ctx with
          | .error e => ({ s with trace := s.trace ++ [Call.mw (mws.length - 1 - d)] }, .error e)
          | .ok a =>
            match execute_middleware_stack_static events mws (d + 1) i
                ⟨a, s.trace ++ [Call.mw (mws.length - 1 - d)]⟩ with
            | (s3, .error e) => (s3, .error e)
            | (s3, .ok ()) =>
              match post s.ctx a with
              | .error e => (s3, .error e)
              | .ok r => ({ s3 with ctx := r }, .ok ()) := by
  rw [execute_middleware_stack_static, dif_neg (by omega : ¬ d ≥ mws.length)]

/-- Every handler call recorded by one onion composition for event position
`i` is either a middleware call (at a valid storage position) or a call of
event `i` itself; the composition only ever appends to the trace. -/
theorem static_trace_entries {Ctx : Type}
    (events : List (Ctx → Except String Ctx)) (mws : List (MwBehavior Ctx)) :
    ∀ (k d i : Nat) (s : EngineState Ctx), mws.length - d ≤ k →
      ∃ t, (execute_middleware_stack_static events mws d i s).1.trace = s.trace ++ t ∧
        ∀ c ∈ t, (∃ j, j < mws.length ∧ c = Call.mw j) ∨ c = Call.event i := by
  have base : ∀ (d i : Nat) (s : EngineState Ctx), mws.length ≤ d →
      ∃ t, (execute_middleware_stack_static events mws d i s).1.trace = s.trace ++ t ∧
        ∀ c ∈ t, (∃ j, j < mws.length ∧ c = Call.mw j) ∨ c = Call.event i := by
    intro d i s hge
    rw [static_base events mws d i s hge]
    cases hev : events[i]? with
    | none => exact ⟨[], by simp, by simp⟩
    | some handler =>
      cases hh : handler s.ctx with
      | error e => exact ⟨[Call.event i], by simp [hh], by simp⟩
      | ok u => exact ⟨[Call.event i], by simp [hh], by simp⟩
  intro k
  induction k with
  | zero =>
    intro d i s hk
    exact base d i s (by omega)
  | succ k ih =>
    intro d i s hk
    by_cases hge : mws.length ≤ d
    · exact base d i s hge
    · have hlt : d < mws.length := by omega
      rw [static_mw events mws d i s hlt]
      have hjlt : mws.length - 1 - d < mws.length := by omega
      cases hmw : mws[mws.length - 1 - d]? with
      | none => exact ⟨[], by simp, by simp⟩
      | some mwb =>
        cases mwb with
        | short f =>
          cases hf : f s.ctx with
          | error e =>
            exact ⟨[Call.mw (mws.length - 1 - d)], by simp [hf], by simp [hjlt]⟩
          | ok r =>
            exact ⟨[Call.mw (mws.length - 1 - d)], by simp [hf], by simp [hjlt]⟩
        | wrap pre post =>
          cases hpre : pre s.ctx with
          | error e =>
            exact ⟨[Call.mw (mws.length - 1 - d)], by simp [hpre], by simp [hjlt]⟩
          | ok a =>
            obtain ⟨t', ht', hmem⟩ :=
              ih (d + 1) i ⟨a, s.trace ++ [Call.mw (mws.length - 1 - d)]⟩ (by omega)
            refine ⟨Call.mw (mws.length - 1 - d) :: t', ?_, ?_⟩
            · simp only [hpre]
              rcases hrec : execute_middleware_stack_static events mws (d + 1) i
                  ⟨a, s.trace ++ [Call.mw (mws.length - 1 - d)]⟩ with ⟨s3, out⟩
              rw [hrec] at ht'
              cases out with
              | error e => simpa using ht'
              | ok u =>
                cases u
                cases hpost : post s.ctx a with
                | error e => simpa using ht'
                | ok r => simpa using ht'
            · intro c hc
              rcases List.mem_cons.mp hc with hc | hc
              · exact Or.inl ⟨mws.length - 1 - d, hjlt, hc⟩
              · exact hmem c hc

/-- Onion composition under pure wrap middleware: starting at depth `d`, the
composition succeeds and appends exactly the calls
`mw (N-1), mw (N-2), ..., mw d`-th selections — i.e. the storage positions
`N-1-d` down to `0` — followed by the event call. -/
theorem static_pure_run {Ctx : Type}
    (events : List (Ctx → Except String Ctx)) (mws : List (MwBehavior Ctx))
    (hmws : ∀ j, j < mws.length → ∃ p q, mws[j]? = some (pureWrap p q)) :
    ∀ (k d i : Nat) (s : EngineState Ctx), mws.length - d ≤ k → d ≤ mws.length →
      (∃ f, events[i]? = some (pureEvent f)) →
      ∃ c', execute_middleware_stack_static events mws d i s
        = (⟨c', s.trace ++ ((List.range (mws.length - d)).reverse.map Call.mw
            ++ [Call.event i])⟩, .ok ()) := by
  intro k
  induction k with
  | zero =>
    intro d i s hk hd hev
    obtain ⟨f, hf⟩ := hev
    rw [static_base events mws d i s (by omega), hf]
    refine ⟨f s.ctx, ?_⟩
    have h0 : mws.length - d = 0 := by omega
    simp [pureEvent, h0]
  | succ k ih =>
    intro d i s hk hd hev
    rcases Nat.eq_or_lt_of_le hd with hd' | hd'
    · obtain ⟨f, hf⟩ := hev
      rw [static_base events mws d i s (by omega), hf]
      refine ⟨f s.ctx, ?_⟩
      have h0 : mws.length - d = 0 := by omega
      simp [pureEvent, h0]
    · obtain ⟨p, q, hmw⟩ := hmws (mws.length - 1 - d) (by omega)
      simp only [pureWrap] at hmw
      rw [static_wrap events mws d i s _ _ (p s.ctx) hd' hmw rfl]
      obtain ⟨c'', hrec⟩ :=
        ih (d + 1) i ⟨p s.ctx, s.trace ++ [Call.mw (mws.length - 1 - d)]⟩ (by omega)
          (by omega) hev
      rw [hrec]
      refine ⟨q s.ctx (p s.ctx), ?_⟩
      have hsplit : mws.length - d = (mws.length - (d + 1)) + 1 := by omega
      have hidx : mws.length - (d + 1) = mws.length - 1 - d := by omega
      rw [hsplit, List.range_succ]
      simp [hidx, List.reverse_append]

/-- Reversing `[0, ..., n-1]` is the same as mapping `d ↦ n - 1 - d` over it:
the LIFO selection order written with the source's index formula. -/
theorem range_reverse_map (n : Nat) :
    (List.range n).reverse = (List.range n).map (fun d => n - 1 - d) := by
  apply List.ext_getElem
  · simp
  · intro i h1 h2
    simp only [List.getElem_reverse, List.getElem_map, List.getElem_range, List.length_reverse,
      List.length_range]

/-- A no-middleware composition step: the event handler is applied to the
global and its result installed. -/
theorem method_nomw_step {Ctx : Type} (events : List (Ctx → Except String Ctx))
    (i : Nat) (s : EngineState Ctx) (f : Ctx → Ctx)
    (hf : events[i]? = some (pureEvent f)) :
    execute_with_middleware events [] i s =
      (⟨f s.ctx, s.trace ++ [Call.event i]⟩, .ok ()) := by
  rw [execute_with_middleware, stack_eq_static,
    static_base events [] 0 i s (by simp), hf]
  rfl

/-- The FIFO loop with no middleware and pure handlers applies the selected
events in list order and records exactly one event call per position. -/
theorem runEvents_nomw {Ctx : Type} (efs : List (Ctx → Ctx)) :
    ∀ (idxs : List Nat) (s : EngineState Ctx), (∀ i ∈ idxs, i < efs.length) →
      runEvents (efs.map pureEvent) [] idxs s =
        (⟨idxs.foldl (fun c i => applyIdx efs i c) s.ctx,
          s.trace ++ idxs.map Call.event⟩, .ok ()) := by
  intro idxs
  induction idxs with
  | nil => intro s _; simp [runEvents]
  | cons i rest ih =>
    intro s hvalid
    have hi : i < efs.length := hvalid i (by simp)
    have hf : (efs.map pureEvent)[i]? = some (pureEvent efs[i]) := by
      rw [List.getElem?_map, List.getElem?_eq_getElem hi]
      rfl
    rw [runEvents, method_nomw_step _ i s efs[i] hf]
    show runEvents (List.map pureEvent efs) [] rest ⟨efs[i] s.ctx, s.trace ++ [Call.event i]⟩ = _
    rw [ih ⟨efs[i] s.ctx, s.trace ++ [Call.event i]⟩ (fun j hj => hvalid j (by simp [hj]))]
    have happ : applyIdx efs i s.ctx = efs[i] s.ctx := by
      simp [applyIdx, List.getElem?_eq_getElem hi]
    simp [happ]

/-- Folding the positions `0, ..., len-1` through position application is the
left fold of the handlers themselves. -/
theorem foldl_range_applyIdx {Ctx : Type} :
    ∀ (efs : List (Ctx → Ctx)) (c : Ctx),
      (List.range efs.length).foldl (fun c i => applyIdx efs i c) c =
        efs.foldl (fun c f => f c) c := by
  intro efs
  induction efs with
  | nil => intro c; simp
  | cons f rest ih =>
    intro c
    rw [List.length_cons, List.range_succ_eq_map]
    simp only [List.foldl_cons, List.foldl_map]
    have hfun : (fun (c : Ctx) (i : Nat) => applyIdx (f :: rest) (Nat.succ i) c)
        = fun (c : Ctx) (i : Nat) => applyIdx rest i c := by
      funext c i
      simp [applyIdx]
    have h0 : applyIdx (f :: rest) 0 c = f c := by simp [applyIdx]
    rw [h0, hfun, ih (f c)]

/-- The FIFO loop splits over an append of position lists, stopping at the
first error. -/
theorem runEvents_append {Ctx : Type}
    (events : List (Ctx → Except String Ctx)) (mws : List (MwBehavior Ctx)) :
    ∀ (l1 l2 : List Nat) (s : EngineState Ctx),
      runEvents events mws (l1 ++ l2) s =
        match runEvents events mws l1 s with
        | (s2, .ok ()) => runEvents events mws l2 s2
        | (s2, .error e) => (s2, .error e) := by
  intro l1
  induction l1 with
  | nil => intro l2 s; rfl
  | cons i rest ih =>
    intro l2 s
    simp only [List.cons_append, runEvents]
    cases hstep : execute_with_middleware events mws i s with
    | mk s2 out =>
      cases out with
      | error e => rfl
      | ok u => cases u; exact ih l2 s2

/-- Every handler call recorded by the FIFO loop is a middleware call (at a
valid storage position) or a call of one of the selected event positions. -/
theorem runEvents_trace_entries {Ctx : Type}
    (events : List (Ctx → Except String Ctx)) (mws : List (MwBehavior Ctx)) :
    ∀ (idxs : List Nat) (s : EngineState Ctx),
      ∃ t, (runEvents events mws idxs s).1.trace = s.trace ++ t ∧
        ∀ c ∈ t, (∃ j, j < mws.length ∧ c = Call.mw j) ∨
          ∃ i, i ∈ idxs ∧ c = Call.event i := by
  intro idxs
  induction idxs with
  | nil => intro s; exact ⟨[], by simp [runEvents], by simp⟩
  | cons i rest ih =>
    intro s
    obtain ⟨t1, ht1, hm1⟩ := static_trace_entries events mws mws.length 0 i s (by omega)
    have hmethod : (execute_with_middleware events mws i s).1.trace = s.trace ++ t1 := by
      rw [execute_with_middleware, stack_eq_static]
      exact ht1
    cases hstep : execute_with_middleware events mws i s with
    | mk s2 out =>
      rw [hstep] at hmethod
      simp only at hmethod
      cases out with
      | error e =>
        refine ⟨t1, by simp [runEvents, hstep, hmethod], ?_⟩
        intro c hc
        rcases hm1 c hc with h | h
        · exact Or.inl h
        · exact Or.inr ⟨i, by simp, h⟩
      | ok u =>
        cases u
        obtain ⟨t2, ht2, hm2⟩ := ih s2
        refine ⟨t1 ++ t2, ?_, ?_⟩
        · rw [runEvents, hstep, ht2, hmethod, List.append_assoc]
        · intro c hc
          rcases List.mem_append.mp hc with hc | hc
          · rcases hm1 c hc with h | h
            · exact Or.inl h
            · exact Or.inr ⟨i, by simp, h⟩
          · rcases hm2 c hc with h | ⟨j, hj, h⟩
            · exact Or.inl h
            · exact Or.inr ⟨j, by simp [hj], h⟩

/-- `[0, ..., K-1]` splits at any `p < K` into the positions before `p`, then
`p`, then positions strictly greater than `p`. -/
theorem range_decomp (p K : Nat) (h : p < K) :
    ∃ rest, List.range K = List.range p ++ p :: rest ∧ ∀ j ∈ rest, p < j := by
  induction K with
  | zero => omega
  | succ K ih =>
    rcases Nat.lt_or_ge p K with h' | h'
    · obtain ⟨rest, hr, hb⟩ := ih h'
      refine ⟨rest ++ [K], ?_, ?_⟩
      · rw [List.range_succ, hr]
        simp
      · intro j hj
        rcases List.mem_append.mp hj with hj | hj
        · exact hb j hj
        · simp only [List.mem_singleton] at hj
          omega
    · have hpK : p = K := by omega
      subst hpK
      exact ⟨[], by rw [List.range_succ], by simp⟩

/-- `Call.mw` is injective. -/
theorem mw_injective : Function.Injective Call.mw := by
  intro a b h
  injection h

/-- One onion block for event position `i` contains exactly one call of the
middleware at storage position `j`, for every valid `j`. -/
theorem onion_block_count (N i j : Nat) (hj : j < N) :
    (((List.range N).reverse.map Call.mw) ++ [Call.event i]).count (Call.mw j) = 1 := by
  rw [List.count_append]
  have h1 : ((List.range N).reverse.map Call.mw).count (Call.mw j) = 1 := by
    rw [List.count_map_of_injective _ _ mw_injective, List.count_reverse]
    exact List.count_eq_one_of_mem (List.nodup_range N) (List.mem_range.mpr hj)
  have h2 : ([Call.event i]).count (Call.mw j) = 0 := by
    rw [List.count_eq_zero]
    simp
  omega

/-- Under pure wrap middleware and pure events, the FIFO loop calls each
middleware exactly once per selected event position. -/
theorem runEvents_pure_count {Ctx : Type}
    (events : List (Ctx → Except String Ctx)) (mws : List (MwBehavior Ctx))
    (hmws : ∀ j, j < mws.length → ∃ p q, mws[j]? = some (pureWrap p q)) :
    ∀ (idxs : List Nat) (s : EngineState Ctx),
      (∀ i ∈ idxs, ∃ f, events[i]? = some (pureEvent f)) →
      ∀ j, j < mws.length →
      (runEvents events mws idxs s).1.trace.count (Call.mw j)
        = s.trace.count (Call.mw j) + idxs.length := by
  intro idxs
  induction idxs with
  | nil => intro s _ j _; simp [runEvents]
  | cons i rest ih =>
    intro s hev j hj
    obtain ⟨c', hrun⟩ := static_pure_run events mws hmws mws.length 0 i s
      (by omega) (by omega) (hev i (by simp))
    have hmethod : execute_with_middleware events mws i s =
        (⟨c', s.trace ++ ((List.range (mws.length - 0)).reverse.map Call.mw
          ++ [Call.event i])⟩, .ok ()) := by
      rw [execute_with_middleware, stack_eq_static]
      exact hrun
    rw [runEvents, hmethod]
    show (runEvents events mws rest _).1.trace.count _ = _
    rw [ih _ (fun m hm => hev m (by simp [hm])) j hj]
    simp only [Nat.sub_zero]
    rw [List.count_append, onion_block_count mws.length i j hj]
    simp only [List.length_cons]
    omega

/-- C1: with `N` registered middleware that each invoke their continuation
exactly once and succeed, one event invocation calls, at cursor depth
`d = 0, 1, ..., N-1`, exactly the middleware stored at position `N - 1 - d`
(last registered outermost, first registered innermost), and the event itself
is called last, at depth `N`. -/
theorem onion_order_selects_lifo {Ctx : Type}
    (events : List (Ctx → Except String Ctx)) (mws : List (MwBehavior Ctx))
    (i : Nat) (s : EngineState Ctx)
    (hmws : ∀ j, j < mws.length → ∃ p q, mws[j]? = some (pureWrap p q))
    (hev : ∃ f, events[i]? = some (pureEvent f)) :
    ∃ c', execute_with_middleware events mws i s =
      (⟨c', s.trace ++ (((List.range mws.length).map fun d => Call.mw (mws.length - 1 - d))
          ++ [Call.event i])⟩, .ok ()) := by
  obtain ⟨c', hrun⟩ := static_pure_run events mws hmws mws.length 0 i s
    (by omega) (by omega) hev
  refine ⟨c', ?_⟩
  rw [execute_with_middleware, stack_eq_static, hrun]
  rw [Nat.sub_zero, range_reverse_map, List.map_map]
  rfl

/-- Witness for C1 at a concrete two-middleware, one-event chain. -/
theorem onion_order_selects_lifo_witness :
    ∃ c', execute_with_middleware [pureEvent (fun c : Nat => c + 1)]
        [pureWrap id (fun _ r => r), pureWrap (fun c => c + 100) (fun _ r => r)] 0 ⟨0, []⟩ =
      (⟨c', [] ++ (((List.range 2).map fun d => Call.mw (2 - 1 - d)) ++ [Call.event 0])⟩,
        .ok ()) :=
  onion_order_selects_lifo _ _ 0 ⟨0, []⟩
    (by
      intro j hj
      simp only [List.length_cons, List.length_nil] at hj
      interval_cases j
      · exact ⟨_, _, rfl⟩
      · exact ⟨_, _, rfl⟩)
    ⟨_, rfl⟩

/-- C3: with no middleware, `execute` applies the event handlers strictly
FIFO (positions `0, 1, ...` in order, none skipped or reordered) and the
final Context is the left fold of the handlers over the initial Context. -/
theorem fifo_no_middleware_fold {Ctx : Type} (efs : List (Ctx → Ctx))
    (s : EngineState Ctx) :
    execute (efs.map pureEvent) [] s =
      (⟨efs.foldl (fun c f => f c) s.ctx,
        s.trace ++ (List.range efs.length).map Call.event⟩, .ok ()) := by
  rw [execute]
  simp only [List.length_map]
  rw [runEvents_nomw efs (List.range efs.length) s (fun i hi => List.mem_range.mp hi),
    foldl_range_applyIdx]

/-- C5: with pure wrap middleware and `K` pure events, one chain execution
calls every registered middleware exactly `K` times — once per event, not
once per chain. -/
theorem middleware_reentered_once_per_event {Ctx : Type}
    (events : List (Ctx → Except String Ctx)) (mws : List (MwBehavior Ctx))
    (s : EngineState Ctx)
    (hmws : ∀ j, j < mws.length → ∃ p q, mws[j]? = some (pureWrap p q))
    (hevs : ∀ i, i < events.length → ∃ f, events[i]? = some (pureEvent f))
    (j : Nat) (hj : j < mws.length) :
    ((execute events mws s).1.trace).count (Call.mw j)
      = s.trace.count (Call.mw j) + events.length := by
  rw [execute, runEvents_pure_count events mws hmws (List.range events.length) s
    (fun i hi => hevs i (List.mem_range.mp hi)) j hj]
  simp

/-- Witness for C5: one middleware, two events — the middleware runs twice. -/
theorem middleware_reentered_once_per_event_witness :
    0 < ([pureWrap id (fun _ r => r)] : List (MwBehavior Nat)).length ∧
    ((execute [pureEvent (fun c : Nat => c + 1), pureEvent (fun c : Nat => c * 2)]
        [pureWrap id (fun _ r => r)] ⟨0, []⟩).1.trace).count (Call.mw 0)
      = ([] : List Call).count (Call.mw 0)
        + [pureEvent (fun c : Nat => c + 1), pureEvent (fun c : Nat => c * 2)].length :=
  ⟨by simp, middleware_reentered_once_per_event _ _ ⟨0, []⟩
    (by
      intro j hj
      simp only [List.length_cons, List.length_nil] at hj
      interval_cases j
      exact ⟨_, _, rfl⟩)
    (by
      intro i hi
      simp only [List.length_cons, List.length_nil] at hi
      interval_cases i
      · exact ⟨_, rfl⟩
      · exact ⟨_, rfl⟩)
    0 (by simp)⟩

/-- C10: the method `execute_middleware_stack` and the free-standing
`execute_middleware_stack_static` compute the same result — the same handler
invocations and the same final shared Context — on every runner state, every
cursor position and every event position. -/
theorem middleware_stack_method_eq_static {Ctx : Type}
    (events : List (Ctx → Except String Ctx)) (mws : List (MwBehavior Ctx))
    (middleware_index event_idx : Nat) (s : EngineState Ctx) :
    execute_middleware_stack events mws middleware_index event_idx s =
      execute_middleware_stack_static events mws middleware_index event_idx s := by
  rw [execute_middleware_stack_static]
  rfl

/-- C2 counterexample: a passthrough middleware returns exactly what `next`
returned.  The event handler replaces the shared Context by `42` (first
conjunct: without middleware the final Context is `42`), so under the claim —
`next` returns the shared Context as updated by the deeper run — the final
Context with the passthrough middleware would also be `42`.  It is `0`: the
value passed into `next`, because the Rust closure returns the `ctx` it was
given (`Ok(ctx)`), not the updated global. -/
theorem next_return_counterexample :
    (execute_with_middleware [fun _ => Except.ok (42 : Nat)] [] 0 ⟨0, []⟩).1.ctx = 42
    ∧ execute_with_middleware [fun _ => Except.ok (42 : Nat)]
        [MwBehavior.wrap (fun c => Except.ok c) (fun _ r => Except.ok r)] 0 ⟨0, []⟩
      = (⟨0, [Call.mw 0, Call.event 0]⟩, .ok ())
    ∧ (0 : Nat) ≠ 42 := by
  refine ⟨rfl, ?_, by decide⟩
  rw [execute_with_middleware, stack_eq_static]
  simp [execute_middleware_stack_static]

/-- C2 amended: when the middleware at depth `d` invokes its continuation
with some Context value `a`, the continuation installs `a` as the new shared
Context, recursively runs the composition at depth `d + 1`, and returns to
the calling middleware the value `a` it was passed — not the shared Context
as further updated by the deeper recursion.  The middleware's
post-processing therefore sees `a`, and deeper updates reach it only through
the shared global, not through `next`'s return value. -/
theorem next_returns_passed_context {Ctx : Type}
    (events : List (Ctx → Except String Ctx)) (mws : List (MwBehavior Ctx))
    (d i : Nat) (s : EngineState Ctx)
    (pre : Ctx → Except String Ctx) (post : Ctx → Ctx → Except String Ctx) (a : Ctx)
    (hlt : d < mws.length)
    (hmw : mws[mws.length - 1 - d]? = some (MwBehavior.wrap pre post))
    (hpre : pre s.ctx = .ok a) :
    execute_middleware_stack_static events mws d i s =
      match execute_middleware_stack_static events mws (d + 1) i
          ⟨a, s.trace ++ [Call.mw (mws.length - 1 - d)]⟩ with
      | (s3, .error e) => (s3, .error e)
      | (s3, .ok ()) =>
        match post s.ctx a with
        | .error e => (s3, .error e)
        | .ok r => ({ s3 with ctx := r }, .ok ()) :=
  static_wrap events mws d i s pre post a hlt hmw hpre

/-- Witness for the amended C2 at a concrete one-middleware chain: the
passthrough middleware's result — what `next` returned — is the passed-in
`0`, although the event set the shared Context to `42` during the inner
phase. -/
theorem next_returns_passed_context_witness :
    0 < ([MwBehavior.wrap (fun c => Except.ok c) (fun _ r => Except.ok r)]
        : List (MwBehavior Nat)).length ∧
    execute_middleware_stack_static [fun _ => Except.ok (42 : Nat)]
        [MwBehavior.wrap (fun c => Except.ok c) (fun _ r => Except.ok r)] 0 0 ⟨0, []⟩ =
      (⟨0, [Call.mw 0, Call.event 0]⟩, .ok ()) := by
  refine ⟨by simp, ?_⟩
  have h := next_returns_passed_context [fun _ => Except.ok (42 : Nat)]
    [MwBehavior.wrap (fun c => Except.ok c) (fun _ r => Except.ok r)] 0 0 ⟨0, []⟩
    (fun c => Except.ok c) (fun _ r => Except.ok r) 0 (by simp) rfl rfl
  rw [h]
  simp [execute_middleware_stack_static]

/-- C4: if the event positions before `p` all succeed and the onion
composition at position `p` fails with reason `r`, then the whole `execute`
run returns that failure with the state exactly as the failing composition
left it (so the effects of positions before `p` are preserved), and no event
at any position after `p` is ever called. -/
theorem abort_on_failure {Ctx : Type}
    (events : List (Ctx → Except String Ctx)) (mws : List (MwBehavior Ctx))
    (p : Nat) (s0 sp sf : EngineState Ctx) (r : String)
    (htr : s0.trace = [])
    (hp : p < events.length)
    (hpre : runEvents events mws (List.range p) s0 = (sp, .ok ()))
    (hfail : execute_with_middleware events mws p sp = (sf, .error r)) :
    execute events mws s0 = (sf, .error r) ∧
      ∀ j, Call.event j ∈ sf.trace → j ≤ p := by
  obtain ⟨rest, hdecomp, _⟩ := range_decomp p events.length hp
  constructor
  · rw [execute, hdecomp, runEvents_append, hpre]
    show runEvents events mws (p :: rest) sp = _
    rw [runEvents, hfail]
  · obtain ⟨t0, ht0, hm0⟩ := runEvents_trace_entries events mws (List.range p) s0
    rw [hpre] at ht0
    simp only at ht0
    obtain ⟨t1, ht1, hm1⟩ := static_trace_entries events mws mws.length 0 p sp (by omega)
    rw [execute_with_middleware, stack_eq_static] at hfail
    rw [hfail] at ht1
    simp only at ht1
    intro j hj
    rw [ht1, ht0, htr, List.nil_append] at hj
    rcases List.mem_append.mp hj with hj | hj
    · rcases hm0 _ hj with ⟨jj, _, h⟩ | ⟨i, hi, h⟩
      · exact absurd h (by simp)
      · injection h with h
        subst h
        exact Nat.le_of_lt (List.mem_range.mp hi)
    · rcases hm1 _ hj with ⟨jj, _, h⟩ | h
      · exact absurd h (by simp)
      · injection h with h
        omega

/-- Witness for C4: chain `[A, B(fails), C]` with no middleware — A runs,
B is attempted and fails, C never runs, and the final Context is A's
effect alone. -/
theorem abort_on_failure_witness :
    (⟨0, []⟩ : EngineState Nat).trace = [] ∧
    1 < [fun c : Nat => Except.ok (c + 1), fun _ : Nat => Except.error "boom",
      fun c : Nat => Except.ok (c + 10)].length ∧
    runEvents [fun c : Nat => Except.ok (c + 1), fun _ : Nat => Except.error "boom",
      fun c : Nat => Except.ok (c + 10)] [] (List.range 1) ⟨0, []⟩
      = (⟨1, [Call.event 0]⟩, .ok ()) ∧
    execute_with_middleware [fun c : Nat => Except.ok (c + 1),
      fun _ : Nat => Except.error "boom", fun c : Nat => Except.ok (c + 10)] [] 1
      ⟨1, [Call.event 0]⟩ = (⟨1, [Call.event 0, Call.event 1]⟩, .error "boom") ∧
    (execute [fun c : Nat => Except.ok (c + 1), fun _ : Nat => Except.error "boom",
        fun c : Nat => Except.ok (c + 10)] [] ⟨0, []⟩
      = (⟨1, [Call.event 0, Call.event 1]⟩, .error "boom") ∧
      ∀ j, Call.event j ∈ (⟨1, [Call.event 0, Call.event 1]⟩ : EngineState Nat).trace →
        j ≤ 1) :=
  ⟨rfl, by simp, rfl, rfl,
    abort_on_failure _ _ 1 ⟨0, []⟩ ⟨1, [Call.event 0]⟩ ⟨1, [Call.event 0, Call.event 1]⟩
      "boom" rfl (by simp) rfl rfl⟩

/-- C9 counterexample: a runner with the single event `counter + 1`.  The
first `execute` ends with Context `1`; calling `execute` again on the state
the first call left behind yields `2`, not the `1` an independent re-run from
the same start would give — the second run's result depends on the Context
left behind by the first, because the Lua global `__context` is installed
once at build time and never reset between runs. -/
theorem successive_runs_share_context_counterexample :
    (execute [fun c : Nat => Except.ok (c + 1)] [] ⟨0, []⟩).1.ctx = 1 ∧
    (execute [fun c : Nat => Except.ok (c + 1)] []
      ((execute [fun c : Nat => Except.ok (c + 1)] [] ⟨0, []⟩).1)).1.ctx = 2 ∧
    (2 : Nat) ≠ 1 :=
  ⟨rfl, rfl, by decide⟩

/-- C9 amended: successive `execute` calls on one runner are not independent:
each run starts from the Context the previous run left in the persistent Lua
global, so `n` repeated runs of the single increment event move the counter
from `c` to `c + n` (an independent-runs semantics would give `c + 1` for
every run). -/
theorem successive_runs_continue_from_previous (n c : Nat) (t : List Call) :
    (iterateExec [fun c : Nat => Except.ok (c + 1)] [] n ⟨c, t⟩).ctx = c + n := by
  induction n generalizing c t with
  | zero => rfl
  | succ n ih =>
    show (iterateExec _ [] n (execute _ [] ⟨c, t⟩).1).ctx = _
    have hstep : (execute [fun c : Nat => Except.ok (c + 1)] [] ⟨c, t⟩).1
        = ⟨c + 1, t ++ [Call.event 0]⟩ := rfl
    rw [hstep, ih]
    omega

/-! ## Helper lemmas about building chains -/

/-- When every entry's `handler` field is present, the extraction loop
succeeds. -/
theorem extractHandlers_all_some {H : Type} (label : String) :
    ∀ (l : List (HandlerEntry H)) (idx : Nat), (∀ e ∈ l, e.handler.isSome) →
      ∃ hs, extractHandlers label l idx = .ok hs := by
  intro l
  induction l with
  | nil => intro idx _; exact ⟨[], rfl⟩
  | cons e rest ih =>
    intro idx hall
    have he : e.handler.isSome := hall e (by simp)
    obtain ⟨h, hh⟩ := Option.isSome_iff_exists.mp he
    obtain ⟨hs, hrest⟩ := ih (idx + 1) (fun x hx => hall x (by simp [hx]))
    exact ⟨h :: hs, by simp [extractHandlers, hh, hrest]⟩

/-- The extraction loop fails on the first entry with no handler, naming its
1-based Lua index. -/
theorem extractHandlers_first_none {H : Type} (label : String)
    (rest : List (HandlerEntry H)) :
    ∀ (pre : List (HandlerEntry H)) (idx : Nat), (∀ e ∈ pre, e.handler.isSome) →
      extractHandlers label (pre ++ ⟨none⟩ :: rest) idx =
        .error ("Failed to get handler for " ++ label ++ " " ++ toString (pre.length + idx)
          ++ ": error converting Lua nil to function") := by
  intro pre
  induction pre with
  | nil =>
    intro idx _
    simp [extractHandlers]
  | cons e l ih =>
    intro idx hall
    have he : e.handler.isSome := hall e (by simp)
    obtain ⟨h, hh⟩ := Option.isSome_iff_exists.mp he
    have hrec := ih (idx + 1) (fun x hx => hall x (by simp [hx]))
    have hlen : l.length + (idx + 1) = (e :: l).length + idx := by simp; omega
    rw [hlen] at hrec
    simp [extractHandlers, hh, hrec]

/-- The chain-building loop fails at the first unresolvable name, with the
`Unknown event` reason naming it. -/
theorem buildChain_first_unknown (rest : List String) (n : String)
    (hn1 : n ≠ "increment") (hn2 : n ≠ "append") :
    ∀ (pre : List String), (∀ m ∈ pre, m = "increment" ∨ m = "append") →
      buildChain (pre ++ n :: rest) = .error ("Unknown event: " ++ n) := by
  intro pre
  induction pre with
  | nil =>
    intro _
    simp [buildChain, resolveEvent, hn1, hn2]
  | cons m l ih =>
    intro hall
    have hrec := ih (fun x hx => hall x (by simp [hx]))
    rcases hall m (by simp) with hm | hm <;>
      simp [buildChain, resolveEvent, hm, hrec]

/-- Looking up a key in a context with a different head key skips the head. -/
theorem ecGet_cons_ne (k' k : String) (w : ECValue) (c : EventContext)
    (h : k' ≠ k) : ecGet ((k', w) :: c) k = ecGet c k := by
  simp only [ecGet, List.find?]
  rw [show ((k', w).1 == k) = false from beq_eq_false_iff_ne.mpr h]

/-- Looking up the head key returns the head value (last write wins). -/
theorem ecGet_cons_self (k : String) (w : ECValue) (c : EventContext) :
    ecGet ((k, w) :: c) k = some w := by
  simp only [ecGet, List.find?]
  rw [show ((k, w).1 == k) = true from beq_iff_eq.mpr rfl]
  rfl

/-- A key not present in the context is unset. -/
theorem ecGet_not_mem (k : String) :
    ∀ (c : EventContext), k ∉ c.map Prod.fst → ecGet c k = none := by
  intro c
  induction c with
  | nil => intro _; rfl
  | cons p rest ih =>
    intro hk
    rcases p with ⟨k', w⟩
    simp only [List.map_cons, List.mem_cons] at hk
    push_neg at hk
    rw [ecGet_cons_ne k' k w rest (fun h => hk.1 h.symm)]
    exact ih hk.2

/-- The extraction loop never touches keys that do not occur in the input
pairs. -/
theorem extractContext_preserves (k : String) :
    ∀ (prs : List (String × LuaValue)) (c0 : EventContext),
      k ∉ prs.map Prod.fst →
      ecGet (extractContext prs c0) k = ecGet c0 k := by
  intro prs
  induction prs with
  | nil => intro c0 _; rfl
  | cons p rest ih =>
    intro c0 hk
    rcases p with ⟨k', v'⟩
    simp only [List.map_cons, List.mem_cons] at hk
    push_neg at hk
    have hne : k' ≠ k := fun h => hk.1 h.symm
    cases v' with
    | integer i =>
      rw [show extractContext ((k', LuaValue.integer i) :: rest) c0
          = extractContext rest ((k', ECValue.int i) :: c0) from rfl]
      rw [ih ((k', ECValue.int i) :: c0) hk.2, ecGet_cons_ne k' k _ c0 hne]
    | str s =>
      rw [show extractContext ((k', LuaValue.str s) :: rest) c0
          = extractContext rest ((k', ECValue.str s) :: c0) from rfl]
      rw [ih ((k', ECValue.str s) :: c0) hk.2, ecGet_cons_ne k' k _ c0 hne]
    | number =>
      rw [show extractContext ((k', LuaValue.number) :: rest) c0
          = extractContext rest c0 from rfl]
      exact ih c0 hk.2
    | other =>
      rw [show extractContext ((k', LuaValue.other) :: rest) c0
          = extractContext rest c0 from rfl]
      exact ih c0 hk.2

/-- What the extraction loop leaves at key `k` when `(k, v)` occurs among
pairs with distinct keys: the integer or text value, and nothing at all when
`v` is a float or other uninterpreted value. -/
theorem extractContext_lookup :
    ∀ (prs : List (String × LuaValue)) (c0 : EventContext) (k : String) (v : LuaValue),
      (k, v) ∈ prs → (prs.map Prod.fst).Nodup → k ∉ c0.map Prod.fst →
      ecGet (extractContext prs c0) k =
        match v with
        | LuaValue.integer i => some (ECValue.int i)
        | LuaValue.str s => some (ECValue.str s)
        | _ => none := by
  intro prs
  induction prs with
  | nil => intro c0 k v hmem; simp at hmem
  | cons p rest ih =>
    intro c0 k v hmem hnd hc0
    rcases p with ⟨k', v'⟩
    simp only [List.map_cons, List.nodup_cons] at hnd
    rcases List.mem_cons.mp hmem with heq | hmem'
    · injection heq with hk hv
      subst hk
      subst hv
      have hkrest : k ∉ rest.map Prod.fst := hnd.1
      cases v with
      | integer i =>
        rw [show extractContext ((k, LuaValue.integer i) :: rest) c0
            = extractContext rest ((k, ECValue.int i) :: c0) from rfl]
        rw [extractContext_preserves k rest _ hkrest, ecGet_cons_self]
      | str s =>
        rw [show extractContext ((k, LuaValue.str s) :: rest) c0
            = extractContext rest ((k, ECValue.str s) :: c0) from rfl]
        rw [extractContext_preserves k rest _ hkrest, ecGet_cons_self]
      | number =>
        rw [show extractContext ((k, LuaValue.number) :: rest) c0
            = extractContext rest c0 from rfl]
        rw [extractContext_preserves k rest c0 hkrest]
        exact ecGet_not_mem k c0 hc0
      | other =>
        rw [show extractContext ((k, LuaValue.other) :: rest) c0
            = extractContext rest c0 from rfl]
        rw [extractContext_preserves k rest c0 hkrest]
        exact ecGet_not_mem k c0 hc0
    · have hk : k ∈ rest.map Prod.fst :=
        List.mem_map.mpr ⟨(k, v), hmem', rfl⟩
      have hne : k' ≠ k := fun h => hnd.1 (h ▸ hk)
      cases v' with
      | integer i =>
        rw [show extractContext ((k', LuaValue.integer i) :: rest) c0
            = extractContext rest ((k', ECValue.int i) :: c0) from rfl]
        refine ih _ k v hmem' hnd.2 ?_
        simp only [List.map_cons, List.mem_cons]
        push_neg
        exact ⟨fun h => hne h.symm, hc0⟩
      | str s =>
        rw [show extractContext ((k', LuaValue.str s) :: rest) c0
            = extractContext rest ((k', ECValue.str s) :: c0) from rfl]
        refine ih _ k v hmem' hnd.2 ?_
        simp only [List.map_cons, List.mem_cons]
        push_neg
        exact ⟨fun h => hne h.symm, hc0⟩
      | number =>
        rw [show extractContext ((k', LuaValue.number) :: rest) c0
            = extractContext rest c0 from rfl]
        exact ih c0 k v hmem' hnd.2 hc0
      | other =>
        rw [show extractContext ((k', LuaValue.other) :: rest) c0
            = extractContext rest c0 from rfl]
        exact ih c0 k v hmem' hnd.2 hc0

/-- A successful `from_definition` installs exactly the definition's
`context` value as the runner's global. -/
theorem from_definition_ok_global {Ctx He Hm : Type}
    (d : ChainDef Ctx He Hm) (r : Runner Ctx He Hm)
    (h : from_definition d = .ok r) : d.context = some r.global := by
  rcases d with ⟨oc, oe, om⟩
  cases oc with
  | none => simp [from_definition] at h
  | some c =>
    cases oe with
    | none => simp [from_definition] at h
    | some es =>
      cases hex : extractHandlers "event" es 1 with
      | error e => simp [from_definition, hex] at h
      | ok hs =>
        cases om with
        | none => simp [from_definition, hex] at h
        | some ms =>
          cases hex2 : extractHandlers "middleware" ms 1 with
          | error e => simp [from_definition, hex, hex2] at h
          | ok hms =>
            simp only [from_definition, hex, hex2] at h
            injection h with h
            subst h
            rfl

/-- C6: an unresolvable descriptor fails the build with a configuration
error identifying the missing identifier, before any event executes.
Part 1 (lua_config path): an unknown event name makes the whole run return
the `Unknown event` error naming it, with zero events executed.  Part 2/3
(`from_definition` path): an event or middleware entry with no resolvable
handler aborts the build with an error naming the entry's 1-based index, and
the pipeline records zero handler calls. -/
theorem build_time_validation :
    (∀ (ctxPairs : List (String × LuaValue)) (pre rest : List String) (n : String),
      (∀ m ∈ pre, m = "increment" ∨ m = "append") →
      n ≠ "increment" → n ≠ "append" →
      luaConfigRun ctxPairs (pre ++ n :: rest) = ([], .error ("Unknown event: " ++ n))) ∧
    (∀ (Ctx : Type) (c : Ctx)
      (preE rest : List (HandlerEntry (Ctx → Except String Ctx)))
      (m : Option (List (HandlerEntry (MwBehavior Ctx)))),
      (∀ e ∈ preE, e.handler.isSome) →
      mainPipeline ⟨some c, some (preE ++ ⟨none⟩ :: rest), m⟩ =
        ([], .error ("Failed to get handler for event " ++ toString (preE.length + 1)
          ++ ": error converting Lua nil to function"))) ∧
    (∀ (Ctx : Type) (c : Ctx) (es : List (HandlerEntry (Ctx → Except String Ctx)))
      (preM restM : List (HandlerEntry (MwBehavior Ctx))),
      (∀ e ∈ es, e.handler.isSome) → (∀ e ∈ preM, e.handler.isSome) →
      mainPipeline ⟨some c, some es, some (preM ++ ⟨none⟩ :: restM)⟩ =
        ([], .error ("Failed to get handler for middleware " ++ toString (preM.length + 1)
          ++ ": error converting Lua nil to function"))) := by
  refine ⟨?_, ?_, ?_⟩
  · intro ctxPairs pre rest n hpre hn1 hn2
    rw [luaConfigRun, buildChain_first_unknown rest n hn1 hn2 pre hpre]
  · intro Ctx c preE rest m hpre
    rw [mainPipeline, from_definition]
    simp only [extractHandlers_first_none "event" rest preE 1 hpre]
    rfl
  · intro Ctx c es preM restM hes hpre
    obtain ⟨hs, hok⟩ := extractHandlers_all_some "event" es 1 hes
    rw [mainPipeline, from_definition]
    simp only [hok, extractHandlers_first_none "middleware" restM preM 1 hpre]
    rfl

/-- Witness for C6: a chain naming the unknown event `typo`; an event entry
with no handler; a middleware entry with no handler. -/
theorem build_time_validation_witness :
    ((∀ m ∈ ["increment"], m = "increment" ∨ m = "append") ∧
      ("typo" : String) ≠ "increment" ∧ ("typo" : String) ≠ "append" ∧
      luaConfigRun [("counter", LuaValue.integer 0)] (["increment"] ++ "typo" :: [])
        = ([], .error ("Unknown event: " ++ "typo"))) ∧
    ((∀ e ∈ ([] : List (HandlerEntry (Nat → Except String Nat))), e.handler.isSome) ∧
      mainPipeline ⟨some (0 : Nat), some ([] ++ ⟨none⟩ :: []), some []⟩ =
        ([], .error ("Failed to get handler for event "
          ++ toString (List.length ([] : List (HandlerEntry (Nat → Except String Nat))) + 1)
          ++ ": error converting Lua nil to function"))) ∧
    ((∀ e ∈ ([⟨some (pureEvent (fun c : Nat => c))⟩]
        : List (HandlerEntry (Nat → Except String Nat))), e.handler.isSome) ∧
      mainPipeline ⟨some (0 : Nat), some [⟨some (pureEvent (fun c : Nat => c))⟩],
          some ([] ++ ⟨none⟩ :: [])⟩ =
        ([], .error ("Failed to get handler for middleware "
          ++ toString (List.length ([] : List (HandlerEntry (MwBehavior Nat))) + 1)
          ++ ": error converting Lua nil to function"))) := by
  refine ⟨⟨?_, ?_, ?_, ?_⟩, ⟨?_, ?_⟩, ⟨?_, ?_⟩⟩
  · decide
  · decide
  · decide
  · exact build_time_validation.1 [("counter", LuaValue.integer 0)] ["increment"] [] "typo"
      (by decide) (by decide) (by decide)
  · simp
  · exact build_time_validation.2.1 Nat 0 [] [] (some []) (by simp)
  · simp
  · exact build_time_validation.2.2 Nat 0 [⟨some (pureEvent (fun c : Nat => c))⟩] [] []
      (by simp) (by simp)

/-- C7 counterexample: a chain definition with `context` and `events` but no
`middleware` field does not build — `from_definition` fails with the
`Failed to get 'middleware'` error — whereas the same definition with an
explicit empty middleware list builds a runner with zero middleware. -/
theorem middleware_field_required_counterexample :
    from_definition (⟨some 0, some [], none⟩ : ChainDef Nat Unit Unit)
      = .error "Failed to get 'middleware': error converting Lua nil to table" ∧
    from_definition (⟨some 0, some [], some []⟩ : ChainDef Nat Unit Unit)
      = .ok ⟨0, [], []⟩ :=
  ⟨rfl, rfl⟩

/-- C7 amended: the `middleware` field is required by `from_definition`, not
optional: omitting it fails the build with an error naming `middleware`
(regardless of the events being well-formed), and a chain with zero
middleware is obtained only by supplying an explicit empty middleware
list. -/
theorem middleware_field_required {Ctx He Hm : Type} (c : Ctx)
    (es : List (HandlerEntry He))
    (hes : ∀ e ∈ es, e.handler.isSome) :
    from_definition (⟨some c, some es, none⟩ : ChainDef Ctx He Hm)
      = .error "Failed to get 'middleware': error converting Lua nil to table" ∧
    ∃ hs, from_definition (⟨some c, some es, some []⟩ : ChainDef Ctx He Hm)
      = .ok ⟨c, hs, []⟩ := by
  obtain ⟨hs, hok⟩ := extractHandlers_all_some "event" es 1 hes
  constructor
  · rw [from_definition]
    simp only [hok]
  · refine ⟨hs, ?_⟩
    rw [from_definition]
    simp only [hok]
    rfl

/-- Witness for the amended C7 at a one-event definition. -/
theorem middleware_field_required_witness :
    (∀ e ∈ ([⟨some ()⟩] : List (HandlerEntry Unit)), e.handler.isSome) ∧
    (from_definition (⟨some 0, some [⟨some ()⟩], none⟩ : ChainDef Nat Unit Unit)
      = .error "Failed to get 'middleware': error converting Lua nil to table" ∧
    ∃ hs, from_definition (⟨some 0, some [⟨some ()⟩], some []⟩ : ChainDef Nat Unit Unit)
      = .ok ⟨0, hs, []⟩) :=
  ⟨by decide, middleware_field_required 0 [⟨some ()⟩] (by decide)⟩

/-- C8 counterexample: a float-valued pair of the initial context is *not*
loaded by the lua_config extraction — the key is absent afterwards — while an
integer-valued pair at the same key is. -/
theorem float_context_dropped_counterexample :
    ecGet (extractContext [("x", LuaValue.number)] []) "x" = none ∧
    ecGet (extractContext [("x", LuaValue.integer 3)] []) "x"
      = some (ECValue.int 3) := by
  constructor
  · rfl
  · rw [show extractContext [("x", LuaValue.integer 3)] []
        = [("x", ECValue.int 3)] from rfl]
    exact ecGet_cons_self "x" (ECValue.int 3) []

/-- C8 amended: of the initial context's key/value pairs, exactly the
integer- and text-valued ones are loaded by the lua_config extraction;
float-valued (and other uninterpreted) pairs are silently skipped.  The
main.rs runner instead installs the definition's context wholesale (its
global is exactly the `context` field), so nothing is dropped on that
path. -/
theorem context_extraction_loads_int_and_text :
    (∀ (prs : List (String × LuaValue)) (k : String) (v : LuaValue),
      (k, v) ∈ prs → (prs.map Prod.fst).Nodup →
      ecGet (extractContext prs []) k =
        match v with
        | LuaValue.integer i => some (ECValue.int i)
        | LuaValue.str s => some (ECValue.str s)
        | _ => none) ∧
    (∀ (Ctx He Hm : Type) (d : ChainDef Ctx He Hm) (r : Runner Ctx He Hm),
      from_definition d = .ok r → d.context = some r.global) := by
  constructor
  · intro prs k v hmem hnd
    exact extractContext_lookup prs [] k v hmem hnd (by simp)
  · intro Ctx He Hm d r h
    exact from_definition_ok_global d r h

/-- Witness for the amended C8: a mixed context with an integer, a text and a
float key; and a concrete build whose global is the supplied context. -/
theorem context_extraction_loads_int_and_text_witness :
    ((("f", LuaValue.number) ∈ [("n", LuaValue.integer 5), ("s", LuaValue.str "hi"),
        ("f", LuaValue.number)] ∧
      (([("n", LuaValue.integer 5), ("s", LuaValue.str "hi"),
        ("f", LuaValue.number)].map Prod.fst).Nodup) ∧
      ecGet (extractContext [("n", LuaValue.integer 5), ("s", LuaValue.str "hi"),
        ("f", LuaValue.number)] []) "f" = none) ∧
    (from_definition (⟨some 7, some [], some []⟩ : ChainDef Nat Unit Unit)
        = .ok ⟨7, [], []⟩ ∧
      (⟨some 7, some [], some []⟩ : ChainDef Nat Unit Unit).context = some 7)) := by
  refine ⟨⟨by decide, by decide, ?_⟩, rfl, ?_⟩
  · exact context_extraction_loads_int_and_text.1 _ "f" LuaValue.number
      (by decide) (by decide)
  · exact context_extraction_loads_int_and_text.2 Nat Unit Unit _ ⟨7, [], []⟩ rfl

end LuaChains
